import Mathlib

/-!
Verification of the piecewise Fourier coefficient computation in
`scripts/fourier_piston.py`.

The Python module works with IEEE doubles; here the arithmetic is embedded over
the real numbers `ℝ`.  Python exceptions are made explicit with `Except`:
float division by zero raises `ZeroDivisionError`, arithmetic on `None` raises
`TypeError`, and the unknown-kind branch of `piecewise_integral` raises
`ValueError`.  The module-level constants `T` and `SEGMENTS` become explicit
parameters of the functions that read them (the concrete constants are kept as
definitions below); everything else follows the source line by line.
-/

namespace FourierPiston

/-- Exceptions that the embedded code can signal.  `domainError` is the error
kind named by the specification's taxonomy; the source never raises it. -/
inductive Err where
  | zeroDivisionError
  | valueError
  | typeError
  | domainError
deriving DecidableEq

/-- A piecewise segment `(start, end, value)`. -/
abbrev Seg : Type := ℝ × ℝ × ℝ

/-- Source constant `T = 60.0`. -/
def T : ℝ := 60

/-- Source constant `SEGMENTS`. -/
def SEGMENTS : List Seg :=
  [(0, 10, 3), (10, 30, 0), (30, 40, 1), (40, 60, 0)]

/-- Angular frequency `w = 2.0 * math.pi * n / T` computed inside
`piecewise_integral` and `reconstruct`. -/
noncomputable def wfreq (T : ℝ) (n : ℤ) : ℝ := 2 * Real.pi * n / T

/-- Source function `piecewise_integral(value, t0, t1, func)`, with the global
`T` as a parameter.  `func` is the tag pair `(kind, n)`; `n` is `Option ℤ`
because the source passes `('const', None)`.  Divisions mirror Python: a zero
denominator raises `ZeroDivisionError`, and computing `w` from `n = None`
raises `TypeError`. -/
noncomputable def piecewise_integral (T value t0 t1 : ℝ) (func : String × Option ℤ) :
    Except Err ℝ :=
  let kind := func.1
  if kind = "const" then
    -- ∫ value dt = value * (t1 - t0)
    .ok (value * (t1 - t0))
  else
    match func.2 with
    | none => .error .typeError
    | some n =>
      -- w = 2.0 * math.pi * n / T
      if T = 0 then .error .zeroDivisionError
      else
        let w := wfreq T n
        if kind = "cos" then
          -- ∫ value * cos(w t) dt = value * (sin(w t)/w)
          if w = 0 then .error .zeroDivisionError
          else .ok (value * (Real.sin (w * t1) - Real.sin (w * t0)) / w)
        else if kind = "sin" then
          -- ∫ value * sin(w t) dt = - value * (cos(w t)/w)
          if w = 0 then .error .zeroDivisionError
          else .ok (-value * (Real.cos (w * t1) - Real.cos (w * t0)) / w)
        else .error .valueError

/-- The accumulation loop of `compute_a0`. -/
noncomputable def a0_loop (T : ℝ) : List Seg → ℝ → Except Err ℝ
  | [], total => .ok total
  | (t0, t1, v) :: rest, total =>
    match piecewise_integral T v t0 t1 ("const", none) with
    | .error e => .error e
    | .ok i => a0_loop T rest (total + i)

/-- Source function `compute_a0()`, with the globals `T` and `SEGMENTS` as
parameters.  Returns `(2.0 / T) * total`; `2.0 / T` raises
`ZeroDivisionError` when `T = 0`. -/
noncomputable def compute_a0 (T : ℝ) (segments : List Seg) : Except Err ℝ :=
  match a0_loop T segments 0 with
  | .error e => .error e
  | .ok total => if T = 0 then .error .zeroDivisionError else .ok (2 / T * total)

/-- The inner per-segment loop of `compute_an_bn` for one harmonic `n`,
accumulating `a_n` and `b_n`. -/
noncomputable def seg_loop (T : ℝ) (n : ℤ) : List Seg → ℝ → ℝ → Except Err (ℝ × ℝ)
  | [], an, bn => .ok (an, bn)
  | (t0, t1, v) :: rest, an, bn =>
    match piecewise_integral T v t0 t1 ("cos", some n) with
    | .error e => .error e
    | .ok ia =>
      match piecewise_integral T v t0 t1 ("sin", some n) with
      | .error e => .error e
      | .ok ib => seg_loop T n rest (an + ia) (bn + ib)

/-- Python `range(a, b)` over `ℤ`: the list `[a, a+1, ..., b-1]`, empty when
`b ≤ a`. -/
def pyRange (a b : ℤ) : List ℤ :=
  (List.range (b - a).toNat).map fun (i : ℕ) => a + (i : ℤ)

/-- The outer harmonic loop of `compute_an_bn`: for each `n`, run the segment
loop, scale by `2.0 / T` (raising `ZeroDivisionError` when `T = 0`), and
append to the coefficient lists. -/
noncomputable def harm_loop (T : ℝ) (segments : List Seg) :
    List ℤ → List ℝ → List ℝ → Except Err (List ℝ × List ℝ)
  | [], aList, bList => .ok (aList, bList)
  | n :: rest, aList, bList =>
    match seg_loop T n segments 0 0 with
    | .error e => .error e
    | .ok (an, bn) =>
      if T = 0 then .error .zeroDivisionError
      else harm_loop T segments rest (aList ++ [an * (2 / T)]) (bList ++ [bn * (2 / T)])

/-- Source function `compute_an_bn(N)`, with the globals as parameters:
`for n in range(1, N + 1)` over the harmonic loop. -/
noncomputable def compute_an_bn (T : ℝ) (segments : List Seg) (N : ℤ) :
    Except Err (List ℝ × List ℝ) :=
  harm_loop T segments (pyRange 1 (N + 1)) [] []

/-- Python float `%`: `x % y = x - y * ⌊x / y⌋`, the remainder carrying the
sign of the divisor, so it lies in `[0, y)` for `y > 0`. -/
noncomputable def pymod (x y : ℝ) : ℝ := x - y * ⌊x / y⌋

/-- The harmonic sum of `reconstruct`: `enumerate(zip(a_list, b_list), start=1)`
starting at index `n`, truncating at the shorter list like Python `zip`. -/
noncomputable def reconstruct_sum (T t : ℝ) : ℤ → List ℝ → List ℝ → ℝ
  | _, [], _ => 0
  | _, _ :: _, [] => 0
  | n, a :: as_rest, b :: bs_rest =>
    let w := wfreq T n
    a * Real.cos (w * t) + b * Real.sin (w * t) + reconstruct_sum T t (n + 1) as_rest bs_rest

/-- Source function `reconstruct(t, a0, a_list, b_list)`, with the global `T`
as a parameter: clip `t` to `[0, T)` with `t % T`, then sum
`a0/2 + Σ a_n cos(w t) + b_n sin(w t)`. -/
noncomputable def reconstruct (T t a0 : ℝ) (aList bList : List ℝ) : ℝ :=
  let tc := pymod t T
  a0 / 2 + reconstruct_sum T tc 1 aList bList

/-! ### Specification-side closed forms

These definitions transcribe the coefficient formulas stated in the
specification, to be compared with the code's results. -/

/-- Spec formula: `a0 = (2/T) * Σ_segments value * (end - start)`. -/
noncomputable def a0_formula (T : ℝ) (segments : List Seg) : ℝ :=
  2 / T * (segments.map fun s => s.2.2 * (s.2.1 - s.1)).sum

/-- Spec formula:
`a_n = (2/T) * Σ_segments value * [sin(w_n*end) - sin(w_n*start)] / w_n`. -/
noncomputable def an_formula (T : ℝ) (segments : List Seg) (n : ℤ) : ℝ :=
  2 / T * (segments.map fun s =>
    s.2.2 * (Real.sin (wfreq T n * s.2.1) - Real.sin (wfreq T n * s.1)) / wfreq T n).sum

/-- Spec formula:
`b_n = (2/T) * Σ_segments -value * [cos(w_n*end) - cos(w_n*start)] / w_n`. -/
noncomputable def bn_formula (T : ℝ) (segments : List Seg) (n : ℤ) : ℝ :=
  2 / T * (segments.map fun s =>
    -s.2.2 * (Real.cos (wfreq T n * s.2.1) - Real.cos (wfreq T n * s.1)) / wfreq T n).sum

/-- An ordered contiguous chain of segments from `c` to `d`: each segment
starts where the previous one ended. -/
def chain : ℝ → List Seg → ℝ → Prop
  | c, [], d => c = d
  | c, (t0, t1, _) :: rest, d => t0 = c ∧ chain t1 rest d

/-- A segment list tiles one period `[0, T)`: some permutation of it is a
contiguous chain from `0` to `T`. -/
def tiles (T : ℝ) (segments : List Seg) : Prop :=
  ∃ segments', segments.Perm segments' ∧ chain 0 segments' T

/-- Two functions over the same segmentation: shared bounds list zipped with a
value per segment. -/
def mkSegs (bounds : List (ℝ × ℝ)) (vals : List ℝ) : List Seg :=
  List.zipWith (fun bd v => (bd.1, bd.2, v)) bounds vals

/-! ### Helper lemmas -/

theorem piecewise_integral_const (T v t0 t1 : ℝ) (nopt : Option ℤ) :
    piecewise_integral T v t0 t1 ("const", nopt) = .ok (v * (t1 - t0)) := by
  simp [piecewise_integral]

theorem wfreq_ne_zero (T : ℝ) (n : ℤ) (hT : T ≠ 0) (hn : n ≠ 0) : wfreq T n ≠ 0 :=
  div_ne_zero
    (mul_ne_zero (mul_ne_zero two_ne_zero Real.pi_ne_zero) (Int.cast_ne_zero.mpr hn)) hT

theorem piecewise_integral_cos (T v t0 t1 : ℝ) (n : ℤ) (hT : T ≠ 0) (hn : n ≠ 0) :
    piecewise_integral T v t0 t1 ("cos", some n) =
      .ok (v * (Real.sin (wfreq T n * t1) - Real.sin (wfreq T n * t0)) / wfreq T n) := by
  simp [piecewise_integral, hT, wfreq_ne_zero T n hT hn]

theorem piecewise_integral_sin (T v t0 t1 : ℝ) (n : ℤ) (hT : T ≠ 0) (hn : n ≠ 0) :
    piecewise_integral T v t0 t1 ("sin", some n) =
      .ok (-v * (Real.cos (wfreq T n * t1) - Real.cos (wfreq T n * t0)) / wfreq T n) := by
  simp [piecewise_integral, hT, wfreq_ne_zero T n hT hn]

theorem a0_loop_eq (T : ℝ) : ∀ (segs : List Seg) (total : ℝ),
    a0_loop T segs total = .ok (total + (segs.map fun s => s.2.2 * (s.2.1 - s.1)).sum)
  | [], total => by simp [a0_loop]
  | (t0, t1, v) :: rest, total => by
    rw [a0_loop, piecewise_integral_const]
    exact (a0_loop_eq T rest (total + v * (t1 - t0))).trans
      (congrArg Except.ok (by simp only [List.map_cons, List.sum_cons]; ring))

theorem compute_a0_eq (T : ℝ) (segs : List Seg) (hT : T ≠ 0) :
    compute_a0 T segs = .ok (a0_formula T segs) := by
  rw [compute_a0, a0_loop_eq]
  simp [hT, a0_formula]

theorem seg_loop_eq (T : ℝ) (n : ℤ) (hT : T ≠ 0) (hn : n ≠ 0) :
    ∀ (segs : List Seg) (an bn : ℝ),
    seg_loop T n segs an bn =
      .ok (an + (segs.map fun s =>
              s.2.2 * (Real.sin (wfreq T n * s.2.1) - Real.sin (wfreq T n * s.1)) /
                wfreq T n).sum,
           bn + (segs.map fun s =>
              -s.2.2 * (Real.cos (wfreq T n * s.2.1) - Real.cos (wfreq T n * s.1)) /
                wfreq T n).sum)
  | [], an, bn => by simp [seg_loop]
  | (t0, t1, v) :: rest, an, bn => by
    rw [seg_loop, piecewise_integral_cos T v t0 t1 n hT hn,
      piecewise_integral_sin T v t0 t1 n hT hn]
    refine (seg_loop_eq T n hT hn rest _ _).trans (congrArg Except.ok ?_)
    simp only [Prod.mk.injEq, List.map_cons, List.sum_cons]
    exact ⟨by ring, by ring⟩

theorem harm_loop_eq (T : ℝ) (segs : List Seg) (hT : T ≠ 0) :
    ∀ (ns : List ℤ), (∀ n ∈ ns, n ≠ 0) → ∀ (aL bL : List ℝ),
    harm_loop T segs ns aL bL =
      .ok (aL ++ ns.map (an_formula T segs), bL ++ ns.map (bn_formula T segs))
  | [], _, aL, bL => by simp [harm_loop]
  | n :: rest, h, aL, bL => by
    have hn : n ≠ 0 := h n (List.mem_cons_self n rest)
    rw [harm_loop, seg_loop_eq T n hT hn]
    simp only [hT, if_false]
    rw [harm_loop_eq T segs hT rest (fun m hm => h m (List.mem_cons_of_mem n hm))]
    simp only [List.map_cons, List.append_assoc, List.singleton_append]
    have ha : ((0 : ℝ) + (segs.map fun s =>
        s.2.2 * (Real.sin (wfreq T n * s.2.1) - Real.sin (wfreq T n * s.1)) /
          wfreq T n).sum) * (2 / T) = an_formula T segs n := by
      rw [an_formula]; ring
    have hb : ((0 : ℝ) + (segs.map fun s =>
        -s.2.2 * (Real.cos (wfreq T n * s.2.1) - Real.cos (wfreq T n * s.1)) /
          wfreq T n).sum) * (2 / T) = bn_formula T segs n := by
      rw [bn_formula]; ring
    rw [ha, hb]

theorem pyRange_one_le {b n : ℤ} (h : n ∈ pyRange 1 b) : 1 ≤ n := by
  rw [pyRange, List.mem_map] at h
  obtain ⟨i, hi, rfl⟩ := h
  omega

theorem compute_an_bn_eq (T : ℝ) (segs : List Seg) (N : ℤ) (hT : T ≠ 0) :
    compute_an_bn T segs N =
      .ok ((pyRange 1 (N + 1)).map (an_formula T segs),
           (pyRange 1 (N + 1)).map (bn_formula T segs)) := by
  rw [compute_an_bn,
    harm_loop_eq T segs hT (pyRange 1 (N + 1))
      (fun n hn => by have := pyRange_one_le hn; omega) [] []]
  simp

theorem pymod_eq_fract (x y : ℝ) (hy : y ≠ 0) : pymod x y = y * Int.fract (x / y) := by
  have h : y * (x / y) = x := by field_simp
  rw [pymod, Int.fract, mul_sub, h]

theorem pymod_nonneg (x y : ℝ) (hy : 0 < y) : 0 ≤ pymod x y := by
  rw [pymod_eq_fract x y (ne_of_gt hy)]
  exact mul_nonneg hy.le (Int.fract_nonneg _)

theorem pymod_lt (x y : ℝ) (hy : 0 < y) : pymod x y < y := by
  rw [pymod_eq_fract x y (ne_of_gt hy)]
  calc y * Int.fract (x / y) < y * 1 :=
        mul_lt_mul_of_pos_left (Int.fract_lt_one _) hy
    _ = y := mul_one y

theorem pymod_add_int_mul (x y : ℝ) (k : ℤ) : pymod (x + k * y) y = pymod x y := by
  rcases eq_or_ne y 0 with hy | hy
  · simp [pymod, hy]
  · rw [pymod_eq_fract _ y hy, pymod_eq_fract x y hy]
    congr 1
    rw [add_div, mul_div_assoc, div_self hy, mul_one, Int.fract_add_int]

theorem pymod_pymod (x y : ℝ) (hy : 0 < y) : pymod (pymod x y) y = pymod x y := by
  have hy' := ne_of_gt hy
  rw [pymod_eq_fract x y hy', pymod_eq_fract _ y hy', mul_div_cancel_left₀ _ hy',
    Int.fract_fract]

theorem reconstruct_add_int_mul (T t a0 : ℝ) (k : ℤ) (aL bL : List ℝ) :
    reconstruct T (t + k * T) a0 aL bL = reconstruct T t a0 aL bL := by
  simp only [reconstruct, pymod_add_int_mul]

theorem reconstruct_pymod_arg (T t a0 : ℝ) (aL bL : List ℝ) (hT : 0 < T) :
    reconstruct T (pymod t T) a0 aL bL = reconstruct T t a0 aL bL := by
  simp only [reconstruct, pymod_pymod t T hT]

/-! ### Tiling and telescoping -/

theorem chain_sum_sub (f : ℝ → ℝ) : ∀ (segs : List Seg) (c d : ℝ), chain c segs d →
    (segs.map fun s => f s.2.1 - f s.1).sum = f d - f c
  | [], c, d, h => by
    have hc : c = d := h
    simp [hc]
  | (t0, t1, v) :: rest, c, d, h => by
    obtain ⟨h0, hrest⟩ := h
    rw [List.map_cons, List.sum_cons, chain_sum_sub f rest t1 d hrest, h0]
    ring

theorem tiles_sum_sub (T : ℝ) (f : ℝ → ℝ) (segs : List Seg) (h : tiles T segs) :
    (segs.map fun s => f s.2.1 - f s.1).sum = f T - f 0 := by
  obtain ⟨segs', hperm, hchain⟩ := h
  rw [List.Perm.sum_eq (hperm.map _)]
  exact chain_sum_sub f segs' 0 T hchain

theorem const_weight_sum (T V : ℝ) (f : ℝ → ℝ) (segs : List Seg)
    (hVal : ∀ s ∈ segs, s.2.2 = V) (h : tiles T segs) :
    (segs.map fun s => s.2.2 * (f s.2.1 - f s.1)).sum = V * (f T - f 0) := by
  have h1 : segs.map (fun s => s.2.2 * (f s.2.1 - f s.1)) =
      segs.map (fun s => (fun x => V * f x) s.2.1 - (fun x => V * f x) s.1) := by
    apply List.map_congr_left
    intro s hs
    simp only
    rw [hVal s hs]
    ring
  rw [h1, tiles_sum_sub T (fun x => V * f x) segs h]
  ring

theorem sin_wfreq_mul_period (T : ℝ) (n : ℤ) (hT : T ≠ 0) :
    Real.sin (wfreq T n * T) = 0 := by
  have h : wfreq T n * T = ((2 * n : ℤ) : ℝ) * Real.pi := by
    rw [wfreq, div_mul_cancel₀ _ hT]
    push_cast
    ring
  rw [h, Real.sin_int_mul_pi]

theorem cos_wfreq_mul_period (T : ℝ) (n : ℤ) (hT : T ≠ 0) :
    Real.cos (wfreq T n * T) = 1 := by
  have h : wfreq T n * T = ((n : ℤ) : ℝ) * (2 * Real.pi) := by
    rw [wfreq, div_mul_cancel₀ _ hT]
    ring
  rw [h, Real.cos_int_mul_two_pi]

theorem an_formula_const (T V : ℝ) (segs : List Seg) (n : ℤ) (hT : T ≠ 0)
    (hVal : ∀ s ∈ segs, s.2.2 = V) (h : tiles T segs) :
    an_formula T segs n = 0 := by
  have h1 : segs.map (fun s =>
      s.2.2 * (Real.sin (wfreq T n * s.2.1) - Real.sin (wfreq T n * s.1)) / wfreq T n) =
      segs.map (fun s => s.2.2 *
        ((fun x => Real.sin (wfreq T n * x) / wfreq T n) s.2.1 -
         (fun x => Real.sin (wfreq T n * x) / wfreq T n) s.1)) := by
    apply List.map_congr_left
    intro s _
    simp only
    ring
  rw [an_formula, h1,
    const_weight_sum T V (fun x => Real.sin (wfreq T n * x) / wfreq T n) segs hVal h]
  simp [sin_wfreq_mul_period T n hT]

theorem bn_formula_const (T V : ℝ) (segs : List Seg) (n : ℤ) (hT : T ≠ 0)
    (hVal : ∀ s ∈ segs, s.2.2 = V) (h : tiles T segs) :
    bn_formula T segs n = 0 := by
  have h1 : segs.map (fun s =>
      -s.2.2 * (Real.cos (wfreq T n * s.2.1) - Real.cos (wfreq T n * s.1)) / wfreq T n) =
      segs.map (fun s => s.2.2 *
        ((fun x => -Real.cos (wfreq T n * x) / wfreq T n) s.2.1 -
         (fun x => -Real.cos (wfreq T n * x) / wfreq T n) s.1)) := by
    apply List.map_congr_left
    intro s _
    simp only
    ring
  rw [bn_formula, h1,
    const_weight_sum T V (fun x => -Real.cos (wfreq T n * x) / wfreq T n) segs hVal h]
  simp [cos_wfreq_mul_period T n hT]

theorem a0_formula_const (T V : ℝ) (segs : List Seg) (hT : T ≠ 0)
    (hVal : ∀ s ∈ segs, s.2.2 = V) (h : tiles T segs) :
    a0_formula T segs = 2 * V := by
  have h1 : segs.map (fun s => s.2.2 * (s.2.1 - s.1)) =
      segs.map (fun s => s.2.2 * ((fun x => x) s.2.1 - (fun x => x) s.1)) := rfl
  rw [a0_formula, h1, const_weight_sum T V (fun x => x) segs hVal h]
  field_simp
  ring

/-! ### Linearity over a shared segmentation -/

theorem mkSegs_linear_sum (base : ℝ → ℝ → ℝ) :
    ∀ (bounds : List (ℝ × ℝ)) (vf vg : List ℝ),
      vf.length = bounds.length → vg.length = bounds.length →
      ((mkSegs bounds (List.zipWith (· + ·) vf vg)).map fun s =>
          s.2.2 * base s.1 s.2.1).sum =
        ((mkSegs bounds vf).map fun s => s.2.2 * base s.1 s.2.1).sum +
        ((mkSegs bounds vg).map fun s => s.2.2 * base s.1 s.2.1).sum
  | [], _, _, _, _ => by simp [mkSegs]
  | bd :: bs, [], _, hf, _ => by simp at hf
  | bd :: bs, _ :: _, [], _, hg => by simp at hg
  | bd :: bs, x :: xs, y :: ys, hf, hg => by
    simp only [List.length_cons, Nat.succ.injEq] at hf hg
    simp only [List.zipWith_cons_cons, mkSegs, List.map_cons, List.sum_cons]
    have ih := mkSegs_linear_sum base bs xs ys hf hg
    simp only [mkSegs] at ih
    rw [ih]
    ring

theorem a0_formula_linear (T : ℝ) (bounds : List (ℝ × ℝ)) (vf vg : List ℝ)
    (hf : vf.length = bounds.length) (hg : vg.length = bounds.length) :
    a0_formula T (mkSegs bounds (List.zipWith (· + ·) vf vg)) =
      a0_formula T (mkSegs bounds vf) + a0_formula T (mkSegs bounds vg) := by
  have h := mkSegs_linear_sum (fun a b => b - a) bounds vf vg hf hg
  simp only at h
  simp only [a0_formula]
  rw [h, mul_add]

theorem an_formula_linear (T : ℝ) (n : ℤ) (bounds : List (ℝ × ℝ)) (vf vg : List ℝ)
    (hf : vf.length = bounds.length) (hg : vg.length = bounds.length) :
    an_formula T (mkSegs bounds (List.zipWith (· + ·) vf vg)) n =
      an_formula T (mkSegs bounds vf) n + an_formula T (mkSegs bounds vg) n := by
  have hmap : ∀ segs : List Seg,
      segs.map (fun s =>
        s.2.2 * (Real.sin (wfreq T n * s.2.1) - Real.sin (wfreq T n * s.1)) / wfreq T n) =
      segs.map (fun s =>
        s.2.2 * ((Real.sin (wfreq T n * s.2.1) - Real.sin (wfreq T n * s.1)) / wfreq T n)) :=
    fun segs => List.map_congr_left (fun s _ => by ring)
  have h := mkSegs_linear_sum
    (fun a b => (Real.sin (wfreq T n * b) - Real.sin (wfreq T n * a)) / wfreq T n)
    bounds vf vg hf hg
  simp only at h
  simp only [an_formula, hmap]
  rw [h, mul_add]

theorem bn_formula_linear (T : ℝ) (n : ℤ) (bounds : List (ℝ × ℝ)) (vf vg : List ℝ)
    (hf : vf.length = bounds.length) (hg : vg.length = bounds.length) :
    bn_formula T (mkSegs bounds (List.zipWith (· + ·) vf vg)) n =
      bn_formula T (mkSegs bounds vf) n + bn_formula T (mkSegs bounds vg) n := by
  have hmap : ∀ segs : List Seg,
      segs.map (fun s =>
        -s.2.2 * (Real.cos (wfreq T n * s.2.1) - Real.cos (wfreq T n * s.1)) / wfreq T n) =
      segs.map (fun s =>
        s.2.2 * (-(Real.cos (wfreq T n * s.2.1) - Real.cos (wfreq T n * s.1)) / wfreq T n)) :=
    fun segs => List.map_congr_left (fun s _ => by ring)
  have h := mkSegs_linear_sum
    (fun a b => -(Real.cos (wfreq T n * b) - Real.cos (wfreq T n * a)) / wfreq T n)
    bounds vf vg hf hg
  simp only at h
  simp only [bn_formula, hmap]
  rw [h, mul_add]

theorem map_zipWith_add {α : Type} (f g : α → ℝ) : ∀ (l : List α),
    l.map (fun x => f x + g x) = List.zipWith (· + ·) (l.map f) (l.map g)
  | [] => rfl
  | x :: xs => by
    simp only [List.map_cons, List.zipWith_cons_cons, map_zipWith_add f g xs]

/-! ### Error-path helpers for `T = 0` -/

theorem seg_loop_T0_cons (n : ℤ) (t0 t1 v : ℝ) (rest : List Seg) (an bn : ℝ) :
    seg_loop 0 n ((t0, t1, v) :: rest) an bn = .error .zeroDivisionError := by
  rw [seg_loop]
  simp [piecewise_integral]

theorem harm_loop_T0 (segs : List Seg) (n : ℤ) (rest : List ℤ) (aL bL : List ℝ) :
    harm_loop 0 segs (n :: rest) aL bL = .error .zeroDivisionError := by
  cases segs with
  | nil =>
    rw [harm_loop]
    simp [seg_loop]
  | cons s ss =>
    obtain ⟨t0, t1, v⟩ := s
    rw [harm_loop, seg_loop_T0_cons]

theorem pyRange_head_of_pos (N : ℤ) (hN : 1 ≤ N) :
    pyRange 1 (N + 1) =
      1 :: (List.range (N.toNat - 1)).map (fun (i : ℕ) => 2 + (i : ℤ)) := by
  rw [pyRange]
  have h1 : (N + 1 - 1).toNat = (N.toNat - 1) + 1 := by omega
  rw [h1, List.range_succ_eq_map, List.map_cons, List.map_map]
  refine congrArg₂ List.cons (by simp) (List.map_congr_left fun i _ => ?_)
  simp only [Function.comp_apply]
  push_cast
  ring

/-! ### Claim theorems -/

/-- C1: for every harmonic `n` in `1..N` with period `T > 0`, `compute_an_bn`
returns exactly the closed-form per-segment antiderivative sums
`a_n = (2/T) * Σ value*(sin(w_n*end) - sin(w_n*start))/w_n` and
`b_n = (2/T) * Σ -value*(cos(w_n*end) - cos(w_n*start))/w_n`, with
`w_n = 2*pi*n/T`, summed across segments in list order. -/
theorem c1_compute_an_bn_closed_form (T : ℝ) (segs : List Seg) (N : ℤ) (hT : 0 < T) :
    compute_an_bn T segs N =
      .ok ((pyRange 1 (N + 1)).map (an_formula T segs),
           (pyRange 1 (N + 1)).map (bn_formula T segs)) :=
  compute_an_bn_eq T segs N (ne_of_gt hT)

/-- Witness for C1 at `T = 60`, the source `SEGMENTS`, and `N = 1`. -/
theorem c1_compute_an_bn_closed_form_witness :
    (0 : ℝ) < 60 ∧ compute_an_bn 60 SEGMENTS 1 =
      .ok ([an_formula 60 SEGMENTS 1], [bn_formula 60 SEGMENTS 1]) := by
  refine ⟨by norm_num, ?_⟩
  have h := c1_compute_an_bn_closed_form 60 SEGMENTS 1 (by norm_num)
  have hr : pyRange 1 (1 + 1) = [1] := by decide
  rw [hr] at h
  simpa using h

/-- C2: `compute_a0` returns `a0 = (2/T) * Σ value*(end-start)`; at the
concrete input `T = 60` with the source `SEGMENTS` this is `(2/60)*40 = 4/3`
(see the witness), so the DC term `a0/2` is `2/3`. -/
theorem c2_compute_a0_closed_form (T : ℝ) (segs : List Seg) (hT : 0 < T) :
    compute_a0 T segs = .ok (a0_formula T segs) :=
  compute_a0_eq T segs (ne_of_gt hT)

/-- Witness for C2: the concrete scenario of the specification. -/
theorem c2_compute_a0_closed_form_witness :
    (0 : ℝ) < 60 ∧ compute_a0 60 SEGMENTS = .ok (4 / 3) ∧ (4 : ℝ) / 3 / 2 = 2 / 3 := by
  refine ⟨by norm_num, ?_, by norm_num⟩
  have h := c2_compute_a0_closed_form 60 SEGMENTS (by norm_num)
  rw [h]
  congr 1
  simp only [a0_formula, SEGMENTS, List.map_cons, List.map_nil, List.sum_cons,
    List.sum_nil]
  norm_num

/-- C3: `reconstruct` is periodic with period `T`: for every series, every
`t`, and every integer `k` (including negative `k`),
`reconstruct(t + k*T) = reconstruct(t)`. -/
theorem c3_reconstruct_periodic (T t a0 : ℝ) (k : ℤ) (aL bL : List ℝ) :
    reconstruct T (t + k * T) a0 aL bL = reconstruct T t a0 aL bL :=
  reconstruct_add_int_mul T t a0 k aL bL

/-- C4: for any period `T > 0` and any segment list tiling one period with the
single constant value `V`, `compute_a0` returns `2V` and `compute_an_bn`
returns all-zero coefficient lists. -/
theorem c4_constant_function_no_harmonics (T V : ℝ) (segs : List Seg) (N : ℤ)
    (hT : 0 < T) (htiles : tiles T segs) (hVal : ∀ s ∈ segs, s.2.2 = V) :
    compute_a0 T segs = .ok (2 * V) ∧
    compute_an_bn T segs N = .ok (List.replicate N.toNat 0, List.replicate N.toNat 0) := by
  have hT' := ne_of_gt hT
  have hrep : ∀ f : ℤ → ℝ, (∀ n ∈ pyRange 1 (N + 1), f n = 0) →
      (pyRange 1 (N + 1)).map f = List.replicate N.toNat 0 := by
    intro f hf
    refine List.eq_replicate_iff.mpr ⟨?_, ?_⟩
    · simp only [List.length_map, pyRange, List.length_range]
      omega
    · intro b hb
      obtain ⟨n, hn, rfl⟩ := List.mem_map.mp hb
      exact hf n hn
  refine ⟨?_, ?_⟩
  · rw [compute_a0_eq T segs hT', a0_formula_const T V segs hT' hVal htiles]
  · rw [compute_an_bn_eq T segs N hT',
      hrep _ (fun n _ => an_formula_const T V segs n hT' hVal htiles),
      hrep _ (fun n _ => bn_formula_const T V segs n hT' hVal htiles)]

/-- Witness for C4: constant value `5` on two segments tiling `[0, 60)`,
order `N = 2`. -/
theorem c4_constant_function_no_harmonics_witness :
    ((0 : ℝ) < 60 ∧ tiles 60 [((0 : ℝ), (20 : ℝ), (5 : ℝ)), (20, 60, 5)] ∧
      (∀ s ∈ [((0 : ℝ), (20 : ℝ), (5 : ℝ)), (20, 60, 5)], s.2.2 = 5)) ∧
    compute_a0 60 [((0 : ℝ), (20 : ℝ), (5 : ℝ)), (20, 60, 5)] = .ok (2 * 5) ∧
    compute_an_bn 60 [((0 : ℝ), (20 : ℝ), (5 : ℝ)), (20, 60, 5)] 2 =
      .ok (List.replicate 2 0, List.replicate 2 0) := by
  have h1 : (0 : ℝ) < 60 := by norm_num
  have h2 : tiles 60 [((0 : ℝ), (20 : ℝ), (5 : ℝ)), (20, 60, 5)] :=
    ⟨[((0 : ℝ), (20 : ℝ), (5 : ℝ)), (20, 60, 5)], List.Perm.refl _,
      ⟨rfl, rfl, rfl⟩⟩
  have h3 : ∀ s ∈ [((0 : ℝ), (20 : ℝ), (5 : ℝ)), (20, 60, 5)], s.2.2 = 5 := by
    intro s hs
    simp only [List.mem_cons, List.not_mem_nil, or_false] at hs
    rcases hs with rfl | rfl <;> rfl
  have h := c4_constant_function_no_harmonics 60 5
    [((0 : ℝ), (20 : ℝ), (5 : ℝ)), (20, 60, 5)] 2 h1 h2 h3
  exact ⟨⟨h1, h2, h3⟩, by simpa using h⟩

/-- C5: coefficient computation is linear: over a shared period and shared
segmentation, every coefficient of the pointwise sum of two piecewise
functions is the sum of the corresponding coefficients. -/
theorem c5_coefficients_linear (T : ℝ) (bounds : List (ℝ × ℝ)) (vf vg : List ℝ)
    (N : ℤ) (hT : 0 < T) (hf : vf.length = bounds.length)
    (hg : vg.length = bounds.length) (a0f a0g : ℝ) (Af Bf Ag Bg : List ℝ)
    (h1 : compute_a0 T (mkSegs bounds vf) = .ok a0f)
    (h2 : compute_a0 T (mkSegs bounds vg) = .ok a0g)
    (h3 : compute_an_bn T (mkSegs bounds vf) N = .ok (Af, Bf))
    (h4 : compute_an_bn T (mkSegs bounds vg) N = .ok (Ag, Bg)) :
    compute_a0 T (mkSegs bounds (List.zipWith (· + ·) vf vg)) = .ok (a0f + a0g) ∧
    compute_an_bn T (mkSegs bounds (List.zipWith (· + ·) vf vg)) N =
      .ok (List.zipWith (· + ·) Af Ag, List.zipWith (· + ·) Bf Bg) := by
  have hT' := ne_of_gt hT
  rw [compute_a0_eq _ _ hT'] at h1 h2
  rw [compute_an_bn_eq _ _ _ hT'] at h3 h4
  have e1 : a0_formula T (mkSegs bounds vf) = a0f := Except.ok.inj h1
  have e2 : a0_formula T (mkSegs bounds vg) = a0g := Except.ok.inj h2
  have e3 := Except.ok.inj h3
  have e4 := Except.ok.inj h4
  rw [Prod.mk.injEq] at e3 e4
  obtain ⟨eA1, eB1⟩ := e3
  obtain ⟨eA2, eB2⟩ := e4
  refine ⟨?_, ?_⟩
  · rw [compute_a0_eq _ _ hT',
      a0_formula_linear T bounds vf vg hf hg, e1, e2]
  · rw [compute_an_bn_eq _ _ _ hT']
    have hA : (pyRange 1 (N + 1)).map
        (an_formula T (mkSegs bounds (List.zipWith (· + ·) vf vg))) =
        List.zipWith (· + ·) Af Ag := by
      rw [← eA1, ← eA2, ← map_zipWith_add]
      exact List.map_congr_left fun n _ => an_formula_linear T n bounds vf vg hf hg
    have hB : (pyRange 1 (N + 1)).map
        (bn_formula T (mkSegs bounds (List.zipWith (· + ·) vf vg))) =
        List.zipWith (· + ·) Bf Bg := by
      rw [← eB1, ← eB2, ← map_zipWith_add]
      exact List.map_congr_left fun n _ => bn_formula_linear T n bounds vf vg hf hg
    rw [hA, hB]

/-- Witness for C5: period `60`, bounds `[(0,30),(30,60)]`, values `[1,2]`
and `[3,4]`, order `N = 1`. -/
theorem c5_coefficients_linear_witness :
    compute_a0 60 (mkSegs [((0 : ℝ), (30 : ℝ)), (30, 60)]
        (List.zipWith (· + ·) [(1 : ℝ), 2] [(3 : ℝ), 4])) =
      .ok (a0_formula 60 (mkSegs [((0 : ℝ), (30 : ℝ)), (30, 60)] [(1 : ℝ), 2]) +
           a0_formula 60 (mkSegs [((0 : ℝ), (30 : ℝ)), (30, 60)] [(3 : ℝ), 4])) ∧
    compute_an_bn 60 (mkSegs [((0 : ℝ), (30 : ℝ)), (30, 60)]
        (List.zipWith (· + ·) [(1 : ℝ), 2] [(3 : ℝ), 4])) 1 =
      .ok (List.zipWith (· + ·)
             [an_formula 60 (mkSegs [((0 : ℝ), (30 : ℝ)), (30, 60)] [(1 : ℝ), 2]) 1]
             [an_formula 60 (mkSegs [((0 : ℝ), (30 : ℝ)), (30, 60)] [(3 : ℝ), 4]) 1],
           List.zipWith (· + ·)
             [bn_formula 60 (mkSegs [((0 : ℝ), (30 : ℝ)), (30, 60)] [(1 : ℝ), 2]) 1]
             [bn_formula 60 (mkSegs [((0 : ℝ), (30 : ℝ)), (30, 60)] [(3 : ℝ), 4]) 1]) := by
  have h60 : (60 : ℝ) ≠ 0 := by norm_num
  have hr : pyRange 1 (1 + 1) = [1] := by decide
  have hcoef : ∀ vals : List ℝ,
      compute_an_bn 60 (mkSegs [((0 : ℝ), (30 : ℝ)), (30, 60)] vals) 1 =
        .ok ([an_formula 60 (mkSegs [((0 : ℝ), (30 : ℝ)), (30, 60)] vals) 1],
             [bn_formula 60 (mkSegs [((0 : ℝ), (30 : ℝ)), (30, 60)] vals) 1]) := by
    intro vals
    rw [compute_an_bn_eq _ _ _ h60, hr]
    simp
  exact c5_coefficients_linear 60 [((0 : ℝ), (30 : ℝ)), (30, 60)]
    [(1 : ℝ), 2] [(3 : ℝ), 4] 1 (by norm_num) rfl rfl _ _ _ _ _ _
    (compute_a0_eq _ _ h60) (compute_a0_eq _ _ h60)
    (hcoef [(1 : ℝ), 2]) (hcoef [(3 : ℝ), 4])

/-- C6: `N = 0` yields empty coefficient lists and `reconstruct` applied to
empty coefficient lists returns the DC term `a0/2` at every `t`. -/
theorem c6_order_zero (T t a0 : ℝ) (segs : List Seg) :
    compute_an_bn T segs 0 = .ok ([], []) ∧ reconstruct T t a0 [] [] = a0 / 2 := by
  refine ⟨?_, ?_⟩
  · have h : pyRange 1 (0 + 1) = [] := by decide
    rw [compute_an_bn, h, harm_loop]
  · simp [reconstruct, reconstruct_sum]

/-- C7: `reconstruct` reduces `t` with a true mathematical modulo: for every
`t` (including negative `t`) the reduced time lies in `[0, T)` and the value
at `t` equals the value at `t mod T`. -/
theorem c7_modulo_reduction (T t a0 : ℝ) (aL bL : List ℝ) (hT : 0 < T) :
    0 ≤ pymod t T ∧ pymod t T < T ∧
      reconstruct T t a0 aL bL = reconstruct T (pymod t T) a0 aL bL :=
  ⟨pymod_nonneg t T hT, pymod_lt t T hT,
    (reconstruct_pymod_arg T t a0 aL bL hT).symm⟩

/-- Witness for C7 at `T = 60` and the negative time `t = -5`. -/
theorem c7_modulo_reduction_witness :
    (0 : ℝ) < 60 ∧ (0 ≤ pymod (-5) 60 ∧ pymod (-5) 60 < 60 ∧
      reconstruct 60 (-5) 1 [1] [2] = reconstruct 60 (pymod (-5) 60) 1 [1] [2]) :=
  ⟨by norm_num, c7_modulo_reduction 60 (-5) 1 [1] [2] (by norm_num)⟩

/-- Counterexample to C8 as stated: at `T = 0` the code fails with a
`ZeroDivisionError`, not a `DomainError`, and at `T = -1 < 0` `compute_a0`
does not fail at all. -/
theorem c8_counterexample :
    compute_a0 0 SEGMENTS = .error .zeroDivisionError ∧
    Err.zeroDivisionError ≠ Err.domainError ∧
    compute_a0 (-1) SEGMENTS = .ok (-80) := by
  refine ⟨?_, by decide, ?_⟩
  · rw [compute_a0, a0_loop_eq]
    simp
  · rw [compute_a0_eq (-1) SEGMENTS (by norm_num)]
    congr 1
    simp only [a0_formula, SEGMENTS, List.map_cons, List.map_nil, List.sum_cons,
      List.sum_nil]
    norm_num

/-- C8 amended: the source performs no `T ≤ 0` validation and raises no
`DomainError`: at `T = 0`, `compute_a0` (and `compute_an_bn` for `N ≥ 1`)
fail with `ZeroDivisionError` from the division by `T` or by `w`, while for
`T < 0` `compute_a0` returns a value without error. -/
theorem c8_no_domain_error (segs : List Seg) (N : ℤ) :
    compute_a0 0 segs = .error .zeroDivisionError ∧
    (1 ≤ N → compute_an_bn 0 segs N = .error .zeroDivisionError) ∧
    (∀ Tn : ℝ, Tn < 0 →
      (∃ r, compute_a0 Tn segs = .ok r) ∧ ∃ p, compute_an_bn Tn segs N = .ok p) := by
  refine ⟨?_, ?_, ?_⟩
  · rw [compute_a0, a0_loop_eq]
    simp
  · intro hN
    rw [compute_an_bn, pyRange_head_of_pos N hN, harm_loop_T0]
  · intro Tn hTn
    exact ⟨⟨a0_formula Tn segs, compute_a0_eq Tn segs (ne_of_lt hTn)⟩,
      ⟨_, compute_an_bn_eq Tn segs N (ne_of_lt hTn)⟩⟩

/-- Witness for the amended C8 at the source constants. -/
theorem c8_no_domain_error_witness :
    compute_a0 0 SEGMENTS = .error .zeroDivisionError ∧
    compute_an_bn 0 SEGMENTS 1 = .error .zeroDivisionError ∧
    (∃ r, compute_a0 (-1) SEGMENTS = .ok r) ∧
    ∃ p, compute_an_bn (-1) SEGMENTS 1 = .ok p := by
  obtain ⟨h1, h2, h3⟩ := c8_no_domain_error SEGMENTS 1
  obtain ⟨ha, hb⟩ := h3 (-1) (by norm_num)
  exact ⟨h1, h2 (by decide), ha, hb⟩

/-- Counterexample to C9 as stated: `compute_an_bn` at `N = -1` does not fail
with a `DomainError`; it returns empty coefficient lists. -/
theorem c9_counterexample :
    compute_an_bn 60 SEGMENTS (-1) = .ok ([], []) ∧
    compute_an_bn 60 SEGMENTS (-1) ≠ .error .domainError := by
  have h : pyRange 1 (-1 + 1) = [] := by decide
  constructor
  · rw [compute_an_bn, h, harm_loop]
  · rw [compute_an_bn, h, harm_loop]
    exact fun hc => Except.noConfusion hc

/-- C9 amended: for every harmonic order `N < 0`, `compute_an_bn` silently
returns two empty coefficient lists (the `range(1, N+1)` loop is empty);
no error of any kind is raised. -/
theorem c9_negative_order_empty (T : ℝ) (segs : List Seg) (N : ℤ) (hN : N < 0) :
    compute_an_bn T segs N = .ok ([], []) := by
  have h : pyRange 1 (N + 1) = [] := by
    rw [pyRange]
    have h0 : (N + 1 - 1).toNat = 0 := by omega
    rw [h0]
    rfl
  rw [compute_an_bn, h, harm_loop]

/-- Witness for the amended C9 at `N = -1`. -/
theorem c9_negative_order_empty_witness :
    (-1 : ℤ) < 0 ∧ compute_an_bn 60 SEGMENTS (-1) = .ok ([], []) :=
  ⟨by decide, c9_negative_order_empty 60 SEGMENTS (-1) (by decide)⟩

/-- C10: with `T > 0`, calling `piecewise_integral` with a kind tag other
than `'const'`, `'cos'`, `'sin'` raises `ValueError`, and with one of the
three known tags and a valid harmonic index `n ≥ 1` it never raises. -/
theorem c10_piecewise_integral_kinds (T v t0 t1 : ℝ) (kind : String) (n : ℤ)
    (hT : 0 < T) :
    (kind ≠ "const" → kind ≠ "cos" → kind ≠ "sin" →
      piecewise_integral T v t0 t1 (kind, some n) = .error .valueError) ∧
    (1 ≤ n → kind = "const" ∨ kind = "cos" ∨ kind = "sin" →
      ∃ r, piecewise_integral T v t0 t1 (kind, some n) = .ok r) := by
  have hT' := ne_of_gt hT
  constructor
  · intro h1 h2 h3
    simp [piecewise_integral, h1, h2, h3, hT']
  · intro hn hk
    have hn0 : n ≠ 0 := by omega
    rcases hk with rfl | rfl | rfl
    · exact ⟨v * (t1 - t0), piecewise_integral_const T v t0 t1 (some n)⟩
    · exact ⟨_, piecewise_integral_cos T v t0 t1 n hT' hn0⟩
    · exact ⟨_, piecewise_integral_sin T v t0 t1 n hT' hn0⟩

/-- Witness for C10: an unknown tag `'tan'` raises `ValueError`; the known
tag `'cos'` with `n = 1` succeeds. -/
theorem c10_piecewise_integral_kinds_witness :
    piecewise_integral 60 1 0 1 ("tan", some 1) = .error .valueError ∧
    ∃ r, piecewise_integral 60 1 0 1 ("cos", some 1) = .ok r := by
  constructor
  · exact (c10_piecewise_integral_kinds 60 1 0 1 "tan" 1 (by norm_num)).1
      (by decide) (by decide) (by decide)
  · exact (c10_piecewise_integral_kinds 60 1 0 1 "cos" 1 (by norm_num)).2
      (by decide) (Or.inr (Or.inl rfl))

end FourierPiston
